import Mathlib

/-!
Verification of the helper functions of the Quantum_Machine_Learning notebooks.

The development shallowly embeds the repository's own glue code:

* `07_Variational_Circuits.ipynb` — the QAOA helpers `pauli_x`, `pauli_z`,
  `product_pauli_z`, `evolve`, `create_circuit`, `evaluate_circuit`;
* `08_Sampling_a_Thermal_State` (checkpoint) — `prepare_init_circuit` and the
  density-matrix/partial-trace computation;
* `05_Gate-Model_Quantum_Computing` (checkpoint) — the Bell circuit.

Library objects (qiskit Paulis, circuits, the statevector simulator) are
embedded with their documented semantics: legacy `Pauli(z, x)` is a pair of
boolean symplectic vectors, a circuit is a list of instructions with `+` as
concatenation, and the statevector simulator uses qiskit's little-endian
convention (basis index `i` has qubit `q` in state `i.testBit q`).
Hamiltonian-evolution compilation (`WeightedPauliOperator.evolve`) is kept
abstract: the circuit-assembly functions are parametrized by the library
function they delegate to.
-/

namespace QML

/-! ## Legacy Pauli operators (qiskit.quantum_info.Pauli, phase-free legacy API)

`Pauli(z, x)` stores two boolean vectors; numpy float vectors passed to the
constructor are cast to booleans entrywise (`v ≠ 0`).  The legacy product of
two Paulis is entrywise xor of the symplectic vectors (no phase is tracked;
for the z-only Paulis built in the notebook the phase is `+1` anyway). -/

structure Pauli where
  z : List Bool
  x : List Bool
deriving DecidableEq, Repr

def Pauli.mul (a b : Pauli) : Pauli :=
  ⟨List.zipWith Bool.xor a.z b.z, List.zipWith Bool.xor a.x b.x⟩

/-- `WeightedPauliOperator([[w₁, P₁], …])`: a list of weighted Pauli terms. -/
structure WeightedPauliOperator where
  paulis : List (ℚ × Pauli)
deriving DecidableEq, Repr

/-- `np.eye(n)` as a list of rows. -/
def eye (n : ℕ) : List (List ℚ) :=
  (List.range n).map (fun i => (List.range n).map (fun j => if j = i then 1 else 0))

/-- numpy's cast of a float vector to a boolean vector (entrywise `≠ 0`),
performed by the legacy `Pauli` constructor. -/
def toBoolVec (v : List ℚ) : List Bool :=
  v.map (fun a => decide (a ≠ 0))

/-- `pauli_x(qubit, coeff)` from `07_Variational_Circuits.ipynb`:
`WeightedPauliOperator([[coeff, Pauli(np.zeros(n_qubits), np.eye(n_qubits)[qubit])]])`.
The module-level global `n_qubits` is passed explicitly; the numpy row
indexing `eye[qubit]` raises out of range, hence the `Option`. -/
def pauli_x (n_qubits qubit : ℕ) (coeff : ℚ) : Option WeightedPauliOperator := do
  let row ← (eye n_qubits)[qubit]?
  return ⟨[(coeff, ⟨toBoolVec (List.replicate n_qubits 0), toBoolVec row⟩)]⟩

/-- `pauli_z(qubit, coeff)` from `07_Variational_Circuits.ipynb`:
`WeightedPauliOperator([[coeff, Pauli(np.eye(n_qubits)[qubit], np.zeros(n_qubits))]])`. -/
def pauli_z (n_qubits qubit : ℕ) (coeff : ℚ) : Option WeightedPauliOperator := do
  let row ← (eye n_qubits)[qubit]?
  return ⟨[(coeff, ⟨toBoolVec row, toBoolVec (List.replicate n_qubits 0)⟩)]⟩

/-- `product_pauli_z(q1, q2, coeff)` from `07_Variational_Circuits.ipynb`:
`WeightedPauliOperator([[coeff, Pauli(eye[q1], zeros) * Pauli(eye[q2], zeros)]])`. -/
def product_pauli_z (n_qubits q1 q2 : ℕ) (coeff : ℚ) : Option WeightedPauliOperator := do
  let row1 ← (eye n_qubits)[q1]?
  let row2 ← (eye n_qubits)[q2]?
  return ⟨[(coeff,
    Pauli.mul ⟨toBoolVec row1, toBoolVec (List.replicate n_qubits 0)⟩
              ⟨toBoolVec row2, toBoolVec (List.replicate n_qubits 0)⟩)]⟩

/-- The boolean standard basis vector `e_q` of length `n`. -/
def stdBasisBool (n q : ℕ) : List Bool :=
  (List.range n).map (fun j => decide (j = q))

/-! ### Helper lemmas about `eye` and the boolean casts -/

theorem eye_get (n q : ℕ) (h : q < n) :
    (eye n)[q]? = some ((List.range n).map (fun j => if j = q then (1 : ℚ) else 0)) := by
  simp [eye, List.getElem?_map, List.getElem?_range, h]

theorem toBoolVec_eyeRow (n q : ℕ) :
    toBoolVec ((List.range n).map (fun j => if j = q then (1 : ℚ) else 0)) =
      stdBasisBool n q := by
  have hfun : (fun j => decide ((if j = q then (1 : ℚ) else 0) ≠ 0)) =
      fun j : ℕ => decide (j = q) := by
    funext j
    by_cases hj : j = q <;> simp [hj]
  simp [toBoolVec, stdBasisBool, List.map_map, Function.comp, hfun]

theorem toBoolVec_zeros (n : ℕ) :
    toBoolVec (List.replicate n (0 : ℚ)) = List.replicate n false := by
  simp [toBoolVec, List.map_replicate]

theorem zipWith_xor_self (l : List Bool) :
    List.zipWith Bool.xor l l = List.replicate l.length false := by
  induction l with
  | nil => rfl
  | cons a l ih => simp [List.zipWith, ih, List.replicate]

theorem zipWith_map_same {α β γ δ : Type} (f : β → γ → δ) (g : α → β) (h : α → γ)
    (l : List α) :
    List.zipWith f (l.map g) (l.map h) = l.map (fun a => f (g a) (h a)) := by
  induction l with
  | nil => rfl
  | cons a l ih => simp [List.zipWith, ih]

/-- C4: `pauli_x(qubit, coeff)` is a single weighted term: weight `coeff`,
x-component the standard basis vector `e_qubit`, z-component all zeros. -/
theorem pauli_x_single_term (n qubit : ℕ) (coeff : ℚ) (h : qubit < n) :
    pauli_x n qubit coeff =
      some ⟨[(coeff, ⟨List.replicate n false, stdBasisBool n qubit⟩)]⟩ := by
  simp [pauli_x, eye_get n qubit h, toBoolVec_eyeRow, toBoolVec_zeros]

/-- Witness for C4 at `n_qubits = 2`, `qubit = 0`, `coeff = 1`. -/
theorem pauli_x_single_term_witness :
    pauli_x 2 0 1 = some ⟨[(1, ⟨List.replicate 2 false, stdBasisBool 2 0⟩)]⟩ :=
  pauli_x_single_term 2 0 1 (by norm_num)

theorem stdBasisBool_length (n q : ℕ) : (stdBasisBool n q).length = n := by
  simp [stdBasisBool]

/-- C5: for distinct qubits `q1 ≠ q2` in range, `product_pauli_z(q1, q2, coeff)` is a
single weighted term: weight `coeff`, z-component true exactly at `q1` and `q2`
(the combination of `e_q1` and `e_q2`), x-component all zeros. -/
theorem product_pauli_z_distinct (n q1 q2 : ℕ) (coeff : ℚ) (hne : q1 ≠ q2)
    (h1 : q1 < n) (h2 : q2 < n) :
    product_pauli_z n q1 q2 coeff =
      some ⟨[(coeff, ⟨(List.range n).map (fun j => decide (j = q1 ∨ j = q2)),
                      List.replicate n false⟩)]⟩ := by
  have hfun : (fun j : ℕ => Bool.xor (decide (j = q1)) (decide (j = q2))) =
      fun j => decide (j = q1 ∨ j = q2) := by
    funext j
    by_cases ha : j = q1 <;> by_cases hb : j = q2
    · exact absurd (ha.symm.trans hb) hne
    · simp [ha, hb, hne]
    · simp [ha, hb, Ne.symm hne]
    · simp [ha, hb]
  have hz : List.zipWith Bool.xor (stdBasisBool n q1) (stdBasisBool n q2) =
      (List.range n).map (fun j => decide (j = q1 ∨ j = q2)) := by
    rw [stdBasisBool, stdBasisBool, zipWith_map_same, hfun]
  have hx : List.zipWith Bool.xor (List.replicate n false) (List.replicate n false) =
      List.replicate n false := by
    simp [zipWith_xor_self]
  simp [product_pauli_z, eye_get n q1 h1, eye_get n q2 h2, toBoolVec_eyeRow,
    toBoolVec_zeros, Pauli.mul, hz, hx]

/-- Witness for C5 at `n_qubits = 2`, `q1 = 0`, `q2 = 1`, `coeff = 1`. -/
theorem product_pauli_z_distinct_witness :
    product_pauli_z 2 0 1 1 =
      some ⟨[(1, ⟨(List.range 2).map (fun j => decide (j = 0 ∨ j = 1)),
                  List.replicate 2 false⟩)]⟩ :=
  product_pauli_z_distinct 2 0 1 1 (by norm_num) (by norm_num) (by norm_num)

/-- C9: on the diagonal `q1 = q2 = q` the two sigma-Z factors cancel:
`product_pauli_z(q, q, coeff)` is `coeff` times the identity Pauli (both
symplectic vectors all false).  Instantiating `coeff := -J[i,i]` gives the
contribution of the diagonal pairs `(i, i)` in the construction of `Hc`. -/
theorem product_pauli_z_diag (n q : ℕ) (coeff : ℚ) (h : q < n) :
    product_pauli_z n q q coeff =
      some ⟨[(coeff, ⟨List.replicate n false, List.replicate n false⟩)]⟩ := by
  have hz : List.zipWith Bool.xor (stdBasisBool n q) (stdBasisBool n q) =
      List.replicate n false := by
    rw [zipWith_xor_self, stdBasisBool_length]
  have hx : List.zipWith Bool.xor (List.replicate n false) (List.replicate n false) =
      List.replicate n false := by
    simp [zipWith_xor_self]
  simp [product_pauli_z, eye_get n q h, toBoolVec_eyeRow, toBoolVec_zeros,
    Pauli.mul, hz, hx, stdBasisBool_length]

/-- Witness for C9 at `n_qubits = 2`, `q = 1`, `coeff = -1` (the diagonal term
`-J[1,1]` with `J[1,1] = 1`). -/
theorem product_pauli_z_diag_witness :
    product_pauli_z 2 1 1 (-1) =
      some ⟨[(-1, ⟨List.replicate 2 false, List.replicate 2 false⟩)]⟩ :=
  product_pauli_z_diag 2 1 (-1) (by norm_num)

/-! ## Circuit assembly (`07_Variational_Circuits.ipynb`)

A qiskit circuit is embedded as a list of instructions over an abstract
instruction type `γ`; qiskit's `circuit + circuit` is concatenation of the
instruction lists (on the shared register `qr`).  The library method
`WeightedPauliOperator.evolve` is kept abstract: `create_circuit` and
`evaluate_circuit` are parametrized by the function `lib` they delegate to,
with the positional arguments of the call written out
(`evo_time`, `num_time_slices`, `quantum_registers`, `expansion_mode`,
`expansion_order`). -/

/-- `functools.reduce(f, l)` without an initializer: raises on an empty list. -/
def reduce1 {α : Type} (f : α → α → α) : List α → Option α
  | [] => none
  | a :: l => some (l.foldl f a)

/-- A Python list comprehension whose body may raise (here: numpy indexing),
evaluated left to right. -/
def pyMap {α : Type} (f : ℕ → Option α) : List ℕ → Option (List α)
  | [] => some []
  | i :: rest =>
    (f i).bind (fun a => (pyMap f rest).bind (fun as => some (a :: as)))

/-- The `expansion_mode` keyword string of the library call (`'suzuki'` in the
notebook), embedded as an enumeration to keep the argument symbolic. -/
inductive ExpansionMode where
  | suzuki
  | trotter
deriving DecidableEq

/-- `evolve(hamiltonian, angle, quantum_registers)` from
`07_Variational_Circuits.ipynb`: a single delegating call
`hamiltonian.evolve(None, angle, 1, quantum_registers=qr, expansion_mode='suzuki',
expansion_order=3)`.  `lib` is the library's `evolve` method (receiver first,
then the positional/keyword arguments in order). -/
def evolve {H R γ : Type} (lib : H → Option Unit → ℝ → ℕ → R → ExpansionMode → ℕ → List γ)
    (hamiltonian : H) (angle : ℝ) (quantum_registers : R) : List γ :=
  lib hamiltonian none angle 1 quantum_registers ExpansionMode.suzuki 3

/-- `create_circuit(beta, gamma)` from `07_Variational_Circuits.ipynb`:

```
circuit_evolv = reduce(lambda x,y: x+y, [evolve(Hc, beta[i], qr) + evolve(Hm, gamma[i], qr)
                        for i in range(p)])
circuit = circuit_init + circuit_evolv
```

The module-level globals `Hc`, `Hm`, `qr`, `circuit_init`, `p` (and the library
method `lib`) are passed explicitly.  Out-of-range indexing of `beta`/`gamma`
and `reduce` over an empty sequence raise, hence the `Option`. -/
def create_circuit {H R γ : Type} (lib : H → Option Unit → ℝ → ℕ → R → ExpansionMode → ℕ → List γ)
    (Hc Hm : H) (qr : R) (circuit_init : List γ) (p : ℕ)
    (beta gamma : List ℝ) : Option (List γ) :=
  ((pyMap (fun i =>
      beta[i]?.bind (fun b => gamma[i]?.bind (fun g =>
        some (evolve lib Hc b qr ++ evolve lib Hm g qr)))) (List.range p)).bind
    (fun terms => reduce1 (fun x y => x ++ y) terms)).bind
    (fun circuit_evolv => some (circuit_init ++ circuit_evolv))

/-- `evaluate_circuit(beta_gamma)` from `07_Variational_Circuits.ipynb`:

```
n = len(beta_gamma)//2
circuit = create_circuit(beta_gamma[:n], beta_gamma[n:])
return np.real(Hc.evaluate_with_statevector(execute(circuit, backend).result().get_statevector())[0])
```

`simulate` is the library's statevector simulation
(`execute(circuit, backend).result().get_statevector()`, state type `S`) and
`expectHc` is `Hc.evaluate_with_statevector(·)[0]`, the complex expectation
value `⟨ψ|Hc|ψ⟩`; `np.real` is `Complex.re`. -/
def evaluate_circuit {H R γ S : Type}
    (lib : H → Option Unit → ℝ → ℕ → R → ExpansionMode → ℕ → List γ)
    (Hc Hm : H) (qr : R) (circuit_init : List γ) (p : ℕ)
    (simulate : List γ → S) (expectHc : S → ℂ)
    (beta_gamma : List ℝ) : Option ℝ :=
  let n := beta_gamma.length / 2
  (create_circuit lib Hc Hm qr circuit_init p
    (beta_gamma.take n) (beta_gamma.drop n)).bind
    (fun circuit => some ((expectHc (simulate circuit)).re))

/-! ### Helper lemmas for `create_circuit` -/

theorem pyMap_eq_map {α : Type} (f : ℕ → Option α) (g : ℕ → α) (l : List ℕ)
    (h : ∀ i ∈ l, f i = some (g i)) : pyMap f l = some (l.map g) := by
  induction l with
  | nil => rfl
  | cons a l ih =>
    have ha : f a = some (g a) := h a (List.mem_cons_self a l)
    have hrest : pyMap f l = some (l.map g) := ih (fun i hi => h i (List.mem_cons_of_mem a hi))
    simp [pyMap, ha, hrest]

theorem foldl_append_eq_flatten {γ : Type} (l : List (List γ)) (a : List γ) :
    l.foldl (fun x y => x ++ y) a = a ++ l.flatten := by
  induction l generalizing a with
  | nil => simp
  | cons b l ih => simp [List.foldl, ih, List.append_assoc]

theorem reduce1_append_eq_flatten {γ : Type} (l : List (List γ)) (h : l ≠ []) :
    reduce1 (fun x y => x ++ y) l = some l.flatten := by
  cases l with
  | nil => exact absurd rfl h
  | cons a l => simp [reduce1, foldl_append_eq_flatten]

/-- Closed form of `create_circuit` under the conditions in which it does not
raise: `p ≥ 1` (as in the notebook, where `p = 1`) and angle arrays of length
at least `p`. -/
theorem create_circuit_eq {H R γ : Type}
    (lib : H → Option Unit → ℝ → ℕ → R → ExpansionMode → ℕ → List γ)
    (Hc Hm : H) (qr : R) (circuit_init : List γ) (p : ℕ) (beta gamma : List ℝ)
    (hp : 1 ≤ p) (hb : p ≤ beta.length) (hg : p ≤ gamma.length) :
    create_circuit lib Hc Hm qr circuit_init p beta gamma =
      some (circuit_init ++
        ((List.range p).map (fun i =>
          evolve lib Hc (beta.getD i 0) qr ++ evolve lib Hm (gamma.getD i 0) qr)).flatten) := by
  have hterms : pyMap (fun i =>
      beta[i]?.bind (fun b => gamma[i]?.bind (fun g =>
        some (evolve lib Hc b qr ++ evolve lib Hm g qr)))) (List.range p) =
      some ((List.range p).map (fun i =>
        evolve lib Hc (beta.getD i 0) qr ++ evolve lib Hm (gamma.getD i 0) qr)) := by
    refine pyMap_eq_map _ _ _ (fun i hi => ?_)
    have hip : i < p := List.mem_range.mp hi
    have hbi : beta[i]? = some (beta.getD i 0) := by
      rw [List.getElem?_eq_getElem (lt_of_lt_of_le hip hb),
        List.getD_eq_getElem beta 0 (lt_of_lt_of_le hip hb)]
    have hgi : gamma[i]? = some (gamma.getD i 0) := by
      rw [List.getElem?_eq_getElem (lt_of_lt_of_le hip hg),
        List.getD_eq_getElem gamma 0 (lt_of_lt_of_le hip hg)]
    rw [hbi, hgi, Option.some_bind, Option.some_bind]
  have hne : (List.range p).map (fun i =>
      evolve lib Hc (beta.getD i 0) qr ++ evolve lib Hm (gamma.getD i 0) qr) ≠ [] := by
    simp only [ne_eq, List.map_eq_nil_iff, List.range_eq_nil]
    omega
  rw [create_circuit, hterms, Option.some_bind, reduce1_append_eq_flatten _ hne,
    Option.some_bind]

/-- C1: for angle arrays of length at least `p` (with `p ≥ 1` as configured in
the notebook), `create_circuit(beta, gamma)` is `circuit_init` followed, for
each `i = 0, …, p-1` in increasing order, by the evolution circuit of `Hc`
under `beta[i]` and then the evolution circuit of `Hm` under `gamma[i]`. -/
theorem create_circuit_spec {H R γ : Type}
    (lib : H → Option Unit → ℝ → ℕ → R → ExpansionMode → ℕ → List γ)
    (Hc Hm : H) (qr : R) (circuit_init : List γ) (p : ℕ) (beta gamma : List ℝ)
    (hp : 1 ≤ p) (hb : p ≤ beta.length) (hg : p ≤ gamma.length) :
    create_circuit lib Hc Hm qr circuit_init p beta gamma =
      some (circuit_init ++
        ((List.range p).map (fun i =>
          evolve lib Hc (beta.getD i 0) qr ++ evolve lib Hm (gamma.getD i 0) qr)).flatten) :=
  create_circuit_eq lib Hc Hm qr circuit_init p beta gamma hp hb hg

/-- Witness for C1: concrete instruction type `ℕ`, `p = 1`, singleton angle
arrays. -/
theorem create_circuit_spec_witness :
    create_circuit (fun _ _ _ _ _ _ _ => ([0] : List ℕ)) 0 0 0 [5] 1 [0] [0] =
      some ([5] ++
        ((List.range 1).map (fun i =>
          evolve (fun _ _ _ _ _ _ _ => ([0] : List ℕ)) 0 (([0] : List ℝ).getD i 0) 0 ++
          evolve (fun _ _ _ _ _ _ _ => ([0] : List ℕ)) 0 (([0] : List ℝ).getD i 0) 0)).flatten) :=
  create_circuit_spec (fun _ _ _ _ _ _ _ => ([0] : List ℕ)) 0 0 0 [5] 1 [0] [0]
    (by norm_num) (by norm_num) (by norm_num)

/-- C3: `evolve(hamiltonian, angle, quantum_registers)` is exactly the single
library call `hamiltonian.evolve(None, angle, 1, quantum_registers=qr,
expansion_mode='suzuki', expansion_order=3)`, whatever the library's `evolve`
method does: the repository performs no exponentiation or Suzuki-Trotter
expansion itself. -/
theorem evolve_delegates {H R γ : Type}
    (lib : H → Option Unit → ℝ → ℕ → R → ExpansionMode → ℕ → List γ)
    (hamiltonian : H) (angle : ℝ) (quantum_registers : R) :
    evolve lib hamiltonian angle quantum_registers =
      lib hamiltonian none angle 1 quantum_registers ExpansionMode.suzuki 3 := rfl

/-- C2: for a parameter vector of even length `2p` (with `p ≥ 1` as configured
in the notebook), `evaluate_circuit` builds `create_circuit` on the two halves
of the vector and returns the real part of the complex expectation value of
`Hc` in the simulated statevector; the returned value is the real number
`(expectHc …).re`. -/
theorem evaluate_circuit_spec {H R γ S : Type}
    (lib : H → Option Unit → ℝ → ℕ → R → ExpansionMode → ℕ → List γ)
    (Hc Hm : H) (qr : R) (circuit_init : List γ) (p : ℕ)
    (simulate : List γ → S) (expectHc : S → ℂ) (beta_gamma : List ℝ)
    (hp : 1 ≤ p) (hlen : beta_gamma.length = 2 * p) :
    ∃ circuit,
      create_circuit lib Hc Hm qr circuit_init p
        (beta_gamma.take p) (beta_gamma.drop p) = some circuit ∧
      evaluate_circuit lib Hc Hm qr circuit_init p simulate expectHc beta_gamma =
        some ((expectHc (simulate circuit)).re) := by
  have hn : beta_gamma.length / 2 = p := by omega
  have htake : p ≤ (beta_gamma.take p).length := by
    rw [List.length_take]
    omega
  have hdrop : p ≤ (beta_gamma.drop p).length := by
    rw [List.length_drop]
    omega
  refine ⟨_, create_circuit_eq lib Hc Hm qr circuit_init p _ _ hp htake hdrop, ?_⟩
  simp only [evaluate_circuit, hn]
  rw [create_circuit_eq lib Hc Hm qr circuit_init p _ _ hp htake hdrop, Option.some_bind]

/-- Witness for C2: concrete instruction type `ℕ`, `p = 1`,
`beta_gamma = [0, 0]`, trivial simulator and expectation. -/
theorem evaluate_circuit_spec_witness :
    ∃ circuit,
      create_circuit (fun _ _ _ _ _ _ _ => ([0] : List ℕ)) 0 0 0 [5] 1
        (([0, 0] : List ℝ).take 1) (([0, 0] : List ℝ).drop 1) = some circuit ∧
      evaluate_circuit (fun _ _ _ _ _ _ _ => ([0] : List ℕ)) 0 0 0 [5] 1
        (fun _ => ()) (fun _ => 0) [0, 0] =
        some (((fun _ : Unit => (0 : ℂ)) ((fun _ : List ℕ => ()) circuit)).re) :=
  evaluate_circuit_spec (fun _ _ _ _ _ _ _ => ([0] : List ℕ)) 0 0 0 [5] 1
    (fun _ => ()) (fun _ => 0) [0, 0] (by norm_num) (by norm_num)

/-! ## Statevector simulation (qiskit Aer, little-endian)

The state of an `n`-qubit register is the family of its `2^n` amplitudes,
embedded as `ψ : ℕ → ℂ` on basis indices; index `i` has qubit `q` in state
`i.testBit q` (qiskit's little-endian convention).  The three gates the
notebooks use are given their textbook matrices:
`RX(θ) = cos(θ/2)·I - i sin(θ/2)·X`, the Hadamard, and CNOT. -/

inductive Gate where
  | rx (theta : ℝ) (q : ℕ)
  | h (q : ℕ)
  | cx (control target : ℕ)

noncomputable def applyGate (g : Gate) (ψ : ℕ → ℂ) : ℕ → ℂ :=
  match g with
  | Gate.rx θ q => fun i =>
      Real.cos (θ / 2) * ψ i - Complex.I * Real.sin (θ / 2) * ψ (i ^^^ 2 ^ q)
  | Gate.h q => fun i =>
      if i.testBit q then (ψ (i ^^^ 2 ^ q) - ψ i) / Real.sqrt 2
      else (ψ i + ψ (i ^^^ 2 ^ q)) / Real.sqrt 2
  | Gate.cx c t => fun i => if i.testBit c then ψ (i ^^^ 2 ^ t) else ψ i

/-- Instructions of a circuit applied in order to a statevector. -/
noncomputable def runCircuit (circuit : List Gate) (ψ : ℕ → ℂ) : ℕ → ℂ :=
  circuit.foldl (fun s g => applyGate g s) ψ

/-- The all-zeros initial state `|0…0⟩` of the simulator. -/
def initState : ℕ → ℂ := fun i => if i = 0 then 1 else 0

/-- `prepare_init_circuit(beta)` from the thermal-state assignment notebook:
on a register of `2 * n_qubits` qubits, for each `i < n_qubits` apply
`rx(α, qr[n_qubits+i])` then `cx(qr[n_qubits+i], qr[i])`, with
`α = 2*arctan(exp(-beta))`.  The module-level global `n_qubits` is passed
explicitly. -/
noncomputable def prepare_init_circuit (n_qubits : ℕ) (beta : ℝ) : List Gate :=
  let α := 2 * Real.arctan (Real.exp (-beta))
  ((List.range n_qubits).map
    (fun i => [Gate.rx α (n_qubits + i), Gate.cx (n_qubits + i) i])).flatten

/-- Modelled from the spec: `get_amplitudes` is defined in
`assignment_helper.py`, which is not among the sources; per the notebooks it
returns the statevector of the circuit run on the all-zeros initial state. -/
noncomputable def get_amplitudes (circuit : List Gate) : ℕ → ℂ :=
  runCircuit circuit initState

/-- `CircuitStateFn(circuit).to_density_matrix()`: the rank-one density matrix
`|ψ⟩⟨ψ|` of the circuit's statevector. -/
noncomputable def to_density_matrix (ψ : ℕ → ℂ) : ℕ → ℕ → ℂ :=
  fun i j => ψ i * (starRingEnd ℂ) (ψ j)

/-- qiskit `partial_trace(dm, [1])` on a two-qubit density matrix: trace out
qubit 1, keeping qubit 0 (little-endian: row index `2*k + a` has qubit 0 in
state `a` and qubit 1 in state `k`). -/
noncomputable def trace_out_qubit1 (ρ : ℕ → ℕ → ℂ) : ℕ → ℕ → ℂ :=
  fun a b => ρ a b + ρ (a + 2) (b + 2)

/-- The Bell circuit of `05_Gate-Model_Quantum_Computing`: Hadamard on qubit 0,
then CNOT with control qubit 0 and target qubit 1. -/
def bell_circuit : List Gate := [Gate.h 0, Gate.cx 0 1]

/-- Born probability of reading classical outcome `i` (little-endian index)
when measuring all qubits of the simulated state. -/
noncomputable def outcome_probability (circuit : List Gate) (i : ℕ) : ℝ :=
  Complex.normSq (runCircuit circuit initState i)

/-! ### Arithmetic helpers for `√2` -/

theorem sqrt_two_mul_self : Real.sqrt 2 * Real.sqrt 2 = 2 :=
  Real.mul_self_sqrt (by norm_num)

theorem sqrt_two_div_two : Real.sqrt 2 / 2 = (Real.sqrt 2)⁻¹ := by
  have h : Real.sqrt 2 ≠ 0 := by positivity
  field_simp

theorem cos_alpha_half : Real.cos (2 * Real.arctan (Real.exp (-(0:ℝ))) / 2) =
    (Real.sqrt 2)⁻¹ := by
  rw [neg_zero, Real.exp_zero, Real.arctan_one]
  have harg : 2 * (Real.pi / 4) / 2 = Real.pi / 4 := by ring
  rw [harg, Real.cos_pi_div_four, sqrt_two_div_two]

theorem sin_alpha_half : Real.sin (2 * Real.arctan (Real.exp (-(0:ℝ))) / 2) =
    (Real.sqrt 2)⁻¹ := by
  rw [neg_zero, Real.exp_zero, Real.arctan_one]
  have harg : 2 * (Real.pi / 4) / 2 = Real.pi / 4 := by ring
  rw [harg, Real.sin_pi_div_four, sqrt_two_div_two]

theorem c_sqrt_two_div_two : ((Real.sqrt 2 : ℝ) : ℂ) / 2 = ((Real.sqrt 2 : ℝ) : ℂ)⁻¹ := by
  rw [show ((2:ℂ)) = ((2:ℝ):ℂ) by norm_num, ← Complex.ofReal_div, sqrt_two_div_two,
    Complex.ofReal_inv]

theorem prepare_init_circuit_zero :
    prepare_init_circuit 1 0 =
      [Gate.rx (2 * Real.arctan (Real.exp (-(0:ℝ)))) 1, Gate.cx 1 0] := by
  simp [prepare_init_circuit, List.range_succ]

theorem prep_amplitudes :
    get_amplitudes (prepare_init_circuit 1 0) 0 = ((Real.sqrt 2 : ℝ) : ℂ)⁻¹ ∧
    get_amplitudes (prepare_init_circuit 1 0) 1 = 0 ∧
    get_amplitudes (prepare_init_circuit 1 0) 2 = 0 ∧
    get_amplitudes (prepare_init_circuit 1 0) 3 =
      -(Complex.I * ((Real.sqrt 2 : ℝ) : ℂ)⁻¹) := by
  rw [get_amplitudes, prepare_init_circuit_zero]
  simp only [runCircuit, List.foldl]
  refine ⟨?_, ?_, ?_, ?_⟩ <;>
    simp +decide [applyGate, initState, cos_alpha_half, sin_alpha_half,
      Complex.ofReal_inv, c_sqrt_two_div_two]

/-- C10: the locked grading assertion of Exercise 3: the statevector of the
circuit returned by `prepare_init_circuit(0)` — `RX(π/2)` on the ancilla
(qubit 1), then CNOT from the ancilla onto the system qubit, starting from
`|00⟩` — is `[1/√2, 0, 0, -i/√2]`, the state `(|00⟩ - i|11⟩)/√2`. -/
theorem prepare_init_circuit_assertion :
    get_amplitudes (prepare_init_circuit 1 0) 0 = 1 / Real.sqrt 2 ∧
    get_amplitudes (prepare_init_circuit 1 0) 1 = 0 ∧
    get_amplitudes (prepare_init_circuit 1 0) 2 = 0 ∧
    get_amplitudes (prepare_init_circuit 1 0) 3 = -Complex.I / Real.sqrt 2 := by
  obtain ⟨h0, h1, h2, h3⟩ := prep_amplitudes
  refine ⟨?_, h1, h2, ?_⟩
  · rw [h0, one_div]
  · rw [h3]
    ring

theorem inv_sqrt_two_sq : ((Real.sqrt 2 : ℝ) : ℂ)⁻¹ * ((Real.sqrt 2 : ℝ) : ℂ)⁻¹ =
    1 / 2 := by
  rw [← mul_inv, ← Complex.ofReal_mul, sqrt_two_mul_self]
  norm_num

/-- C6: the partial trace over the ancilla qubit (index 1) of the density
matrix of the two-qubit state prepared by `prepare_init_circuit(0)` is the
maximally mixed single-qubit state: diagonal entries `1/2`, off-diagonal
entries `0`. -/
theorem trace_out_ancilla_maximally_mixed :
    trace_out_qubit1 (to_density_matrix (get_amplitudes (prepare_init_circuit 1 0))) 0 0 = 1 / 2 ∧
    trace_out_qubit1 (to_density_matrix (get_amplitudes (prepare_init_circuit 1 0))) 0 1 = 0 ∧
    trace_out_qubit1 (to_density_matrix (get_amplitudes (prepare_init_circuit 1 0))) 1 0 = 0 ∧
    trace_out_qubit1 (to_density_matrix (get_amplitudes (prepare_init_circuit 1 0))) 1 1 = 1 / 2 := by
  obtain ⟨h0, h1, h2, h3⟩ := prep_amplitudes
  refine ⟨?_, ?_, ?_, ?_⟩
  · show get_amplitudes (prepare_init_circuit 1 0) 0 *
        (starRingEnd ℂ) (get_amplitudes (prepare_init_circuit 1 0) 0) +
        get_amplitudes (prepare_init_circuit 1 0) 2 *
        (starRingEnd ℂ) (get_amplitudes (prepare_init_circuit 1 0) 2) = 1 / 2
    rw [h0, h2]
    simp [Complex.conj_ofReal, map_inv₀, inv_sqrt_two_sq]
  · show get_amplitudes (prepare_init_circuit 1 0) 0 *
        (starRingEnd ℂ) (get_amplitudes (prepare_init_circuit 1 0) 1) +
        get_amplitudes (prepare_init_circuit 1 0) 2 *
        (starRingEnd ℂ) (get_amplitudes (prepare_init_circuit 1 0) 3) = 0
    rw [h1, h2]
    simp
  · show get_amplitudes (prepare_init_circuit 1 0) 1 *
        (starRingEnd ℂ) (get_amplitudes (prepare_init_circuit 1 0) 0) +
        get_amplitudes (prepare_init_circuit 1 0) 3 *
        (starRingEnd ℂ) (get_amplitudes (prepare_init_circuit 1 0) 2) = 0
    rw [h1, h2]
    simp
  · show get_amplitudes (prepare_init_circuit 1 0) 1 *
        (starRingEnd ℂ) (get_amplitudes (prepare_init_circuit 1 0) 1) +
        get_amplitudes (prepare_init_circuit 1 0) 3 *
        (starRingEnd ℂ) (get_amplitudes (prepare_init_circuit 1 0) 3) = 1 / 2
    rw [h1, h3]
    have hc : (starRingEnd ℂ) (-(Complex.I * ((Real.sqrt 2 : ℝ) : ℂ)⁻¹)) =
        Complex.I * ((Real.sqrt 2 : ℝ) : ℂ)⁻¹ := by
      simp [map_neg, map_mul, Complex.conj_I, Complex.conj_ofReal, map_inv₀]
    rw [hc]
    have : -(Complex.I * ((Real.sqrt 2 : ℝ) : ℂ)⁻¹) * (Complex.I * ((Real.sqrt 2 : ℝ) : ℂ)⁻¹) =
        -(Complex.I * Complex.I) * (((Real.sqrt 2 : ℝ) : ℂ)⁻¹ * ((Real.sqrt 2 : ℝ) : ℂ)⁻¹) := by
      ring
    rw [this, Complex.I_mul_I, inv_sqrt_two_sq]
    norm_num

theorem bell_amplitudes :
    runCircuit bell_circuit initState 0 = ((Real.sqrt 2 : ℝ) : ℂ)⁻¹ ∧
    runCircuit bell_circuit initState 1 = 0 ∧
    runCircuit bell_circuit initState 2 = 0 ∧
    runCircuit bell_circuit initState 3 = ((Real.sqrt 2 : ℝ) : ℂ)⁻¹ := by
  simp only [bell_circuit, runCircuit, List.foldl]
  refine ⟨?_, ?_, ?_, ?_⟩ <;>
    simp +decide [applyGate, initState, c_sqrt_two_div_two, one_div]

set_option linter.unusedVariables false in
/-- C8: measuring the Bell circuit (`H` on qubit 0, then CNOT with control
qubit 0 and target qubit 1, from `|00⟩`): the outcomes `01` (index 1) and `10`
(index 2) occur with probability zero and the outcomes `00` and `11` each with
probability `1/2`; the per-shot Born probabilities do not depend on the number
of shots. -/
theorem bell_outcome_probabilities (shots : ℕ) :
    outcome_probability bell_circuit 1 = 0 ∧
    outcome_probability bell_circuit 2 = 0 ∧
    outcome_probability bell_circuit 0 = 1 / 2 ∧
    outcome_probability bell_circuit 3 = 1 / 2 := by
  obtain ⟨h0, h1, h2, h3⟩ := bell_amplitudes
  refine ⟨?_, ?_, ?_, ?_⟩
  · rw [outcome_probability, h1]
    simp
  · rw [outcome_probability, h2]
    simp
  · rw [outcome_probability, h0]
    rw [map_inv₀, Complex.normSq_ofReal, sqrt_two_mul_self]
    norm_num
  · rw [outcome_probability, h3]
    rw [map_inv₀, Complex.normSq_ofReal, sqrt_two_mul_self]
    norm_num

/-- C7: the helper functions are deterministic: two calls with equal arguments
and equal values of the module-level globals they read (`n_qubits`, `p`, `Hc`,
`Hm`, `qr`, `circuit_init`, and the library methods) return equal results;
there is no hidden mutable state in the embedding of any of them. -/
theorem helpers_deterministic {H R γ : Type}
    (lib lib2 : H → Option Unit → ℝ → ℕ → R → ExpansionMode → ℕ → List γ)
    (n n2 p p2 : ℕ) (Hc Hc2 Hm Hm2 : H) (qr qr2 : R) (ci ci2 : List γ)
    (qubit q1 q2 : ℕ) (coeff : ℚ) (angle bval : ℝ) (ham : H)
    (beta gamma : List ℝ)
    (hlib : lib = lib2) (hn : n = n2) (hp : p = p2) (hHc : Hc = Hc2)
    (hHm : Hm = Hm2) (hqr : qr = qr2) (hci : ci = ci2) :
    pauli_x n qubit coeff = pauli_x n2 qubit coeff ∧
    pauli_z n qubit coeff = pauli_z n2 qubit coeff ∧
    product_pauli_z n q1 q2 coeff = product_pauli_z n2 q1 q2 coeff ∧
    evolve lib ham angle qr = evolve lib2 ham angle qr2 ∧
    create_circuit lib Hc Hm qr ci p beta gamma =
      create_circuit lib2 Hc2 Hm2 qr2 ci2 p2 beta gamma ∧
    prepare_init_circuit n bval = prepare_init_circuit n2 bval := by
  subst hlib hn hp hHc hHm hqr hci
  exact ⟨rfl, rfl, rfl, rfl, rfl, rfl⟩

/-- Witness for C7: all six helpers at concrete globals and arguments. -/
theorem helpers_deterministic_witness :
    pauli_x 2 0 1 = pauli_x 2 0 1 ∧
    pauli_z 2 0 1 = pauli_z 2 0 1 ∧
    product_pauli_z 2 0 1 1 = product_pauli_z 2 0 1 1 ∧
    evolve (fun _ _ _ _ _ _ _ => ([0] : List ℕ)) (0 : ℕ) 0 (0 : ℕ) =
      evolve (fun _ _ _ _ _ _ _ => ([0] : List ℕ)) (0 : ℕ) 0 (0 : ℕ) ∧
    create_circuit (fun _ _ _ _ _ _ _ => ([0] : List ℕ)) 0 0 0 [5] 1 [0] [0] =
      create_circuit (fun _ _ _ _ _ _ _ => ([0] : List ℕ)) 0 0 0 [5] 1 [0] [0] ∧
    prepare_init_circuit 2 0 = prepare_init_circuit 2 0 :=
  helpers_deterministic (fun _ _ _ _ _ _ _ => ([0] : List ℕ))
    (fun _ _ _ _ _ _ _ => ([0] : List ℕ)) 2 2 1 1 0 0 0 0 0 0 [5] [5]
    0 0 1 1 0 0 0 [0] [0] rfl rfl rfl rfl rfl rfl rfl

end QML
